import Mathlib

/-!
Verification development for the helix-cli packaging pipeline.

The definitions below are a shallow embedding of two source files:
`src/RequestContext.js` (request path parsing) and the package command
(`PackageCommand`: incremental filter, archive builder, bundler adapter
glue and the `run` orchestration).  JavaScript strings are modelled as
`List Char` where index arithmetic matters and as `String` elsewhere;
async/await orchestration is modelled as sequential phases producing an
explicit trace; the filesystem, the bundler statistics and the archiver
outcome are parameters of the model.
-/

namespace Helix

/-- JavaScript `String.prototype.lastIndexOf` for a single character:
the index of the last occurrence, `-1` when the character is absent. -/
def jsLastIndexOf (s : List Char) (c : Char) : Int :=
  match s with
  | [] => -1
  | x :: xs =>
    let r := jsLastIndexOf xs c
    if 0 ≤ r then r + 1
    else if x = c then 0 else -1

/-- JavaScript `String.prototype.substring`: clamps both indices into
`[0, length]`, swaps them when out of order, and returns the slice. -/
def jsSubstring (s : List Char) (a b : Int) : List Char :=
  let n : Int := s.length
  let a1 := min (max a 0) n
  let b1 := min (max b 0) n
  let lo := min a1 b1
  let hi := max a1 b1
  (s.take hi.toNat).drop lo.toNat

/-- Result of `new RequestContext(req, cfg)` restricted to the fields the
constructor computes from `req.url` (the config is opaque). -/
structure RequestContext where
  url : Option (List Char)
  path : List Char
  selector : List Char
  extension : List Char
  resourcePath : List Char
deriving DecidableEq

/-- Embedding of the `RequestContext` constructor from
`src/RequestContext.js`.  `url = none` models an absent `req.url`; the
JavaScript `url || '/'` also maps the empty string to `'/'`. -/
def mkRequestContext (url : Option (List Char)) : RequestContext :=
  let path := match url with
    | none => '/' :: []
    | some u => if u = [] then '/' :: [] else u
  let relPath := path
  let lastSlash := jsLastIndexOf relPath '/'
  let lastDot := jsLastIndexOf relPath '.'
  if lastSlash < lastDot then
    let relPath1 := jsSubstring relPath 0 lastDot
    let queryParamIndex := jsLastIndexOf path '?'
    let extension := jsSubstring path (lastDot + 1)
      (if queryParamIndex ≠ -1 then queryParamIndex else (path.length : Int))
    let selDot := jsLastIndexOf relPath1 '.'
    if lastSlash < selDot then
      { url := url, path := path,
        selector := jsSubstring relPath1 (selDot + 1) relPath1.length,
        extension := extension,
        resourcePath := jsSubstring relPath1 0 selDot }
    else
      { url := url, path := path, selector := [],
        extension := extension, resourcePath := relPath1 }
  else if lastSlash = (relPath.length : Int) - 1 then
    { url := url, path := path, selector := [], extension := [],
      resourcePath := relPath ++ "index".toList }
  else
    { url := url, path := path, selector := [], extension := [],
      resourcePath := relPath }

theorem jsLastIndexOf_lt_length (s : List Char) (c : Char) :
    jsLastIndexOf s c < (s.length : Int) := by
  induction s with
  | nil => simp [jsLastIndexOf]
  | cons x xs ih =>
    simp only [jsLastIndexOf, List.length_cons]
    split
    · push_cast; omega
    · split <;> push_cast <;> omega

theorem jsLastIndexOf_append_last (xs : List Char) (c : Char) :
    jsLastIndexOf (xs ++ [c]) c = (xs.length : Int) := by
  induction xs with
  | nil => simp [jsLastIndexOf]
  | cons x xs ih =>
    have h0 : (0 : Int) ≤ (xs.length : Int) := by positivity
    simp only [List.cons_append, jsLastIndexOf, List.append_eq, ih, List.length_cons]
    rw [if_pos h0]
    push_cast; ring

theorem jsLastIndexOf_append_ne (xs : List Char) (c c' : Char) (h : c' ≠ c) :
    jsLastIndexOf (xs ++ [c']) c = jsLastIndexOf xs c := by
  induction xs with
  | nil => simp [jsLastIndexOf, h]
  | cons x xs ih =>
    simp only [List.cons_append, jsLastIndexOf, List.append_eq, ih]

theorem mkRequestContext_trailing (xs : List Char) :
    mkRequestContext (some (xs ++ ['/'])) =
      { url := some (xs ++ ['/']), path := xs ++ ['/'], selector := [],
        extension := [], resourcePath := (xs ++ ['/']) ++ "index".toList } := by
  have hne : xs ++ ['/'] ≠ [] := by simp
  have hs : jsLastIndexOf (xs ++ ['/']) '/' = (xs.length : Int) :=
    jsLastIndexOf_append_last xs '/'
  have hd : jsLastIndexOf (xs ++ ['/']) '.' = jsLastIndexOf xs '.' :=
    jsLastIndexOf_append_ne xs '.' '/' (by decide)
  have hlt : jsLastIndexOf xs '.' < (xs.length : Int) := jsLastIndexOf_lt_length xs '.'
  have h1 : ¬ (jsLastIndexOf (xs ++ ['/']) '/' < jsLastIndexOf (xs ++ ['/']) '.') := by
    rw [hs, hd]; exact not_lt.mpr (le_of_lt hlt)
  have h2 : jsLastIndexOf (xs ++ ['/']) '/' = ((xs ++ ['/']).length : Int) - 1 := by
    rw [hs]; simp
  simp only [mkRequestContext, if_neg hne, if_neg h1, if_pos h2]

/-- C10: for every request whose url ends with a slash — or whose url is
absent, in which case the path defaults to the root — the constructed
`RequestContext` has `resourcePath` equal to `path` with `index`
appended, and both `extension` and `selector` are empty. -/
theorem requestContext_trailing_slash_props (url : Option (List Char))
    (h : url = none ∨ ∃ xs, url = some (xs ++ ['/'])) :
    (mkRequestContext url).resourcePath
        = (mkRequestContext url).path ++ "index".toList ∧
    (mkRequestContext url).extension = [] ∧
    (mkRequestContext url).selector = [] := by
  rcases h with h | ⟨xs, h⟩
  · subst h; decide
  · subst h
    rw [mkRequestContext_trailing xs]
    exact ⟨rfl, rfl, rfl⟩

theorem requestContext_trailing_slash_props_witness :
    ((some ("/docs".toList ++ ['/'])) = none
        ∨ ∃ xs, (some ("/docs".toList ++ ['/'])) = some (xs ++ ['/'])) ∧
    ((mkRequestContext (some ("/docs".toList ++ ['/']))).resourcePath
        = (mkRequestContext (some ("/docs".toList ++ ['/']))).path ++ "index".toList ∧
     (mkRequestContext (some ("/docs".toList ++ ['/']))).extension = [] ∧
     (mkRequestContext (some ("/docs".toList ++ ['/']))).selector = []) :=
  ⟨Or.inr ⟨"/docs".toList, rfl⟩,
   requestContext_trailing_slash_props (some ("/docs".toList ++ ['/']))
     (Or.inr ⟨"/docs".toList, rfl⟩)⟩

/-- The `ActionInfo` descriptor of the package command: one entry per
packagable script, read from a persisted `*.info.json` file and mutated
through the run.  Fields absent on the raw descriptor are modelled by
their default values (`none` / empty string). -/
structure Script where
  main : String := ""
  requires : List String := []
  isStatic : Bool := false
  name : String := ""
  bundleName : String := ""
  bundlePath : String := ""
  dirname : String := ""
  archiveName : String := ""
  zipFile : Option String := none
  archiveSize : Option Nat := none
  infoFile : String := ""
deriving DecidableEq

/-- Notifications emitted by the package command via `this.emit`. -/
inductive Event where
  | ignorePackage (s : Script)
  | createPackage (s : Script)
deriving DecidableEq

/-- JavaScript truthiness of the `zipFile` field: `undefined` and the
empty string are falsy. -/
def jsTruthy : Option String → Bool
  | none => false
  | some s => !(s == "")

/-- One step of the incremental filter (`run`, the map over `scripts`):
`if (!script.zipFile || !(await fs.pathExists(script.zipFile))) delete script.zipFile`.
The short-circuit means the filesystem is only consulted for a truthy
`zipFile`. -/
def clearStale (fsE : String → Bool) (s : Script) : Script :=
  match s.zipFile with
  | none => { s with zipFile := none }
  | some z =>
    if z == "" then { s with zipFile := none }
    else if fsE z then s else { s with zipFile := none }

/-- The incremental filter block of `run` (guarded by `this._onlyModified`):
clears stale `zipFile` fields, emits one `ignore-package` per script that
kept a truthy `zipFile`, and keeps only the scripts without one.  Returns
the remaining working set together with the emitted notifications. -/
def incrementalFilter (onlyModified : Bool) (fsE : String → Bool)
    (scripts : List Script) : List Script × List Event :=
  if onlyModified then
    let cleared := scripts.map (clearStale fsE)
    (cleared.filter (fun s => !(jsTruthy s.zipFile)),
     (cleared.filter (fun s => jsTruthy s.zipFile)).map Event.ignorePackage)
  else (scripts, [])

theorem clearStale_of_exists (fsE : String → Bool) (s : Script) (p : String)
    (hz : s.zipFile = some p) (hp : p ≠ "") (hf : fsE p = true) :
    clearStale fsE s = s := by
  simp only [clearStale, hz]
  rw [if_neg (by simpa using hp), if_pos hf]

theorem clearStale_of_not_exists (fsE : String → Bool) (s : Script) (p : String)
    (hz : s.zipFile = some p) (hf : fsE p = false) :
    clearStale fsE s = { s with zipFile := none } := by
  simp only [clearStale, hz]
  by_cases hp : p == ""
  · rw [if_pos hp]
  · rw [if_neg hp, if_neg (by simp [hf])]

theorem clearStale_falsy (fsE : String → Bool) (s : Script)
    (h : jsTruthy s.zipFile = false) :
    clearStale fsE s = { s with zipFile := none } := by
  match hz : s.zipFile with
  | none => simp only [clearStale, hz]
  | some z =>
    have hzz : (z == "") = true := by
      simpa [jsTruthy, hz] using h
    simp only [clearStale, hz, if_pos hzz]

theorem clearStale_preimage (fsE : String → Bool) (t s : Script)
    (heq : clearStale fsE t = s) (htr : jsTruthy s.zipFile = true) : t = s := by
  match hz : t.zipFile with
  | none =>
    rw [clearStale_falsy fsE t (by simp [jsTruthy, hz])] at heq
    rw [← heq] at htr
    simp [jsTruthy] at htr
  | some z =>
    by_cases hzz : z == ""
    · rw [clearStale_falsy fsE t (by simp [jsTruthy, hz, hzz])] at heq
      rw [← heq] at htr
      simp [jsTruthy] at htr
    · simp only [clearStale, hz, if_neg hzz] at heq
      by_cases hf : fsE z
      · rw [if_pos hf] at heq; exact heq
      · rw [if_neg hf] at heq
        rw [← heq] at htr
        simp [jsTruthy] at htr

theorem count_map_fix {α : Type} [DecidableEq α] (f : α → α) (l : List α) (a : α)
    (hfa : f a = a) (hinj : ∀ t, f t = a → t = a) :
    (l.map f).count a = l.count a := by
  induction l with
  | nil => rfl
  | cons t l ih =>
    simp only [List.map_cons, List.count_cons, ih]
    congr 1
    by_cases ht : t = a
    · subst ht; simp [hfa]
    · have : ¬ (f t = a) := fun h => ht (hinj t h)
      simp [ht, this]

theorem count_filter_pos {α : Type} [DecidableEq α] (p : α → Bool) (l : List α)
    (a : α) (hpa : p a = true) : (l.filter p).count a = l.count a := by
  induction l with
  | nil => rfl
  | cons t l ih =>
    by_cases hpt : p t
    · simp only [List.filter_cons, if_pos hpt, List.count_cons, ih]
    · have hta : ¬ (t = a) := fun h => hpt (h ▸ hpa)
      simp only [List.filter_cons, hpt, if_neg, List.count_cons, ih, Bool.false_eq_true,
        ite_false]
      have : ¬ (t == a) = true := by simpa using hta
      simp [this]

theorem ignorePackage_injective : Function.Injective Event.ignorePackage := by
  intro a b h
  injection h

/-- C4: with incremental mode enabled, a descriptor whose truthy `zipFile`
exists on disk is excluded from the returned working set and produces
exactly one `ignore-package` notification carrying that descriptor, while
a descriptor whose `zipFile` does not exist stays in the working set with
the `zipFile` field removed.  (A real filesystem never reports the empty
path as existing, whence the `fsE "" = false` hypothesis.) -/
theorem incrementalFilter_enabled_spec (fsE : String → Bool) (scripts : List Script)
    (s : Script) (p : String) (hemp : fsE "" = false)
    (hmem : s ∈ scripts) (hz : s.zipFile = some p) :
    (fsE p = true →
      s ∉ (incrementalFilter true fsE scripts).1 ∧
      (scripts.count s = 1 →
        (incrementalFilter true fsE scripts).2.count (Event.ignorePackage s) = 1)) ∧
    (fsE p = false →
      { s with zipFile := none } ∈ (incrementalFilter true fsE scripts).1) := by
  constructor
  · intro hf
    have hp : p ≠ "" := by
      intro h; rw [h] at hf; rw [hemp] at hf; exact Bool.false_ne_true hf
    have htr : jsTruthy s.zipFile = true := by simp [jsTruthy, hz, hp]
    constructor
    · intro hin
      simp only [incrementalFilter, if_pos, List.mem_filter] at hin
      rw [htr] at hin
      simp at hin
    · intro hcount
      have hfix : clearStale fsE s = s := clearStale_of_exists fsE s p hz hp hf
      have hinj : ∀ t, clearStale fsE t = s → t = s := fun t h =>
        clearStale_preimage fsE t s h htr
      simp only [incrementalFilter, if_pos]
      rw [List.count_map_of_injective _ Event.ignorePackage ignorePackage_injective,
        count_filter_pos (fun t => jsTruthy t.zipFile) _ s htr,
        count_map_fix _ _ _ hfix hinj, hcount]
  · intro hf
    have hcl : clearStale fsE s = { s with zipFile := none } :=
      clearStale_of_not_exists fsE s p hz hf
    simp only [incrementalFilter, if_pos, List.mem_filter]
    refine ⟨List.mem_map.mpr ⟨s, hmem, hcl⟩, by simp [jsTruthy]⟩

theorem incrementalFilter_enabled_spec_witness :
    ((fun q => q == "/t/a.zip") "" = false
      ∧ ({ main := "a.js", zipFile := some "/t/a.zip" } : Script)
          ∈ [({ main := "a.js", zipFile := some "/t/a.zip" } : Script)]
      ∧ ({ main := "a.js", zipFile := some "/t/a.zip" } : Script).zipFile
          = some "/t/a.zip") ∧
    (((fun q => q == "/t/a.zip") "/t/a.zip" = true →
      ({ main := "a.js", zipFile := some "/t/a.zip" } : Script)
          ∉ (incrementalFilter true (fun q => q == "/t/a.zip")
              [{ main := "a.js", zipFile := some "/t/a.zip" }]).1 ∧
      ([({ main := "a.js", zipFile := some "/t/a.zip" } : Script)].count
            { main := "a.js", zipFile := some "/t/a.zip" } = 1 →
        (incrementalFilter true (fun q => q == "/t/a.zip")
              [{ main := "a.js", zipFile := some "/t/a.zip" }]).2.count
            (Event.ignorePackage { main := "a.js", zipFile := some "/t/a.zip" }) = 1)) ∧
    ((fun q => q == "/t/a.zip") "/t/a.zip" = false →
      ({ main := "a.js", zipFile := none } : Script)
          ∈ (incrementalFilter true (fun q => q == "/t/a.zip")
              [{ main := "a.js", zipFile := some "/t/a.zip" }]).1)) :=
  ⟨⟨by decide, by simp, rfl⟩,
   incrementalFilter_enabled_spec (fun q => q == "/t/a.zip")
     [{ main := "a.js", zipFile := some "/t/a.zip" }]
     { main := "a.js", zipFile := some "/t/a.zip" } "/t/a.zip"
     (by decide) (by simp) rfl⟩

/-- C9: with incremental mode enabled, a descriptor with no (or a falsy)
`zipFile` stays in the working set, never produces an `ignore-package`
notification, and its treatment is independent of the filesystem (the
existence check is short-circuited away). -/
theorem incrementalFilter_no_zip_spec (fsE fsE2 : String → Bool)
    (scripts : List Script) (s : Script) (hmem : s ∈ scripts)
    (hfalsy : jsTruthy s.zipFile = false) :
    { s with zipFile := none } ∈ (incrementalFilter true fsE scripts).1 ∧
    (∀ e ∈ (incrementalFilter true fsE scripts).2,
      e ≠ Event.ignorePackage s ∧ e ≠ Event.ignorePackage { s with zipFile := none }) ∧
    clearStale fsE s = clearStale fsE2 s := by
  have hcl : clearStale fsE s = { s with zipFile := none } := clearStale_falsy fsE s hfalsy
  refine ⟨?_, ?_, ?_⟩
  · simp only [incrementalFilter, if_pos, List.mem_filter]
    exact ⟨List.mem_map.mpr ⟨s, hmem, hcl⟩, by simp [jsTruthy]⟩
  · intro e he
    simp only [incrementalFilter, if_pos, List.mem_map] at he
    obtain ⟨t, ht, rfl⟩ := he
    have htr : jsTruthy t.zipFile = true := (List.mem_filter.mp ht).2
    constructor
    · intro h
      injection h with h
      rw [h] at htr
      simp [htr] at hfalsy
    · intro h
      injection h with h
      rw [h] at htr
      simp [jsTruthy] at htr
  · rw [hcl, clearStale_falsy fsE2 s hfalsy]

theorem incrementalFilter_no_zip_spec_witness :
    (({ main := "b.js" } : Script) ∈ [({ main := "b.js" } : Script)]
      ∧ jsTruthy ({ main := "b.js" } : Script).zipFile = false) ∧
    (({ main := "b.js", zipFile := none } : Script)
        ∈ (incrementalFilter true (fun _ => true) [{ main := "b.js" }]).1 ∧
    (∀ e ∈ (incrementalFilter true (fun _ => true) [{ main := "b.js" }]).2,
      e ≠ Event.ignorePackage { main := "b.js" }
        ∧ e ≠ Event.ignorePackage { main := "b.js", zipFile := none }) ∧
    clearStale (fun _ => true) { main := "b.js" }
        = clearStale (fun _ => false) { main := "b.js" }) :=
  ⟨⟨by simp, rfl⟩,
   incrementalFilter_no_zip_spec (fun _ => true) (fun _ => false)
     [{ main := "b.js" }] { main := "b.js" } (by simp) rfl⟩

/-- Node `path.basename(p)`: the final path component. -/
def basename (p : String) : String :=
  ((p.splitOn "/").getLast?).getD p

/-- Node `path.basename(p, ext)`: the final component with a trailing
`ext` stripped when the component is longer than the extension. -/
def basenameExt (p : String) (ext : String) : String :=
  let b := basename p
  if b.endsWith ext ∧ ext.length < b.length then b.dropRight ext.length else b

/-- Node `path.dirname(p)` restricted to the relative paths the command
feeds it: everything before the final component, `"."` when there is no
separator. -/
def dirname (p : String) : String :=
  let parts := p.splitOn "/"
  if parts.length ≤ 1 then "." else String.intercalate "/" parts.dropLast

/-- Node `path.resolve(...)` simplified to the joins the command performs:
empty segments are skipped, a later absolute segment wins, otherwise the
segments are joined with a separator.  No claim inspects the internal
shape of the produced paths. -/
def pathResolve (parts : List String) : String :=
  parts.foldl
    (fun acc q =>
      if q = "" then acc
      else if q.startsWith "/" then q
      else if acc = "" then q
      else acc ++ "/" ++ q)
    ""

/-- The object literal `packageJson` built inside `createPackage`. -/
structure PackageJson where
  name : String
  version : String
  description : String
  main : String
  license : String
deriving DecidableEq

/-- The manifest createPackage synthesizes for a script: fixed version
`1.0`, fixed license `Apache-2.0`, `main` the basename of the entry. -/
def mkPackageJson (info : Script) : PackageJson :=
  { name := info.name, version := "1.0",
    description := "Lambda function of " ++ info.name,
    main := basename info.main,
    license := "Apache-2.0" }

/-- One character of `JSON.stringify` string quoting. -/
def jsonEscapeChar (c : Char) : String :=
  if c = '"' then "\\\"" else if c = '\\' then "\\\\" else String.singleton c

/-- `JSON.stringify` of a string value. -/
def jsonQuote (s : String) : String :=
  "\"" ++ String.join (s.toList.map jsonEscapeChar) ++ "\""

/-- `JSON.stringify(packageJson, null, '  ')`: the five fields in
declaration order, 2-space indentation. -/
def serializePackageJson (p : PackageJson) : String :=
  "\x7b\n  \"name\": " ++ jsonQuote p.name ++
  ",\n  \"version\": " ++ jsonQuote p.version ++
  ",\n  \"description\": " ++ jsonQuote p.description ++
  ",\n  \"main\": " ++ jsonQuote p.main ++
  ",\n  \"license\": " ++ jsonQuote p.license ++ "\n\x7d"

/-- Outcome of the archiver/write-stream pair for one script: either the
stream closes having written `size` total bytes with no error signalled,
or the archive library emits a `warning` or an `error` event. -/
inductive ArchSignal where
  | ok (size : Nat)
  | warning (msg : String)
  | error (msg : String)
deriving DecidableEq

/-- Result of one `createPackage(info, bar)` call: the (possibly updated)
descriptor, the zip entries written, the notifications emitted, the
rejection reason of the returned promise if any, and the error
diagnostics logged. -/
structure CPkgResult where
  info : Script
  entries : List (String × String)
  events : List Event
  rejected : Option String
  diagnostics : List String
deriving DecidableEq

/-- Embedding of `PackageCommand.createPackage`: appends the manifest and
the bundle file (under the basename of the entry script) to a zip at
`info.zipFile`.  On a clean close it records `archiveSize` and emits
`create-package`; an archiver `warning` or `error` event logs a
diagnostic, marks the run errored (so the close handler does nothing) and
rejects the promise.  `bc` models reading the bundle file contents. -/
def createPackage (bc : String → String) (sig : ArchSignal) (info : Script) :
    CPkgResult :=
  let manifest := serializePackageJson (mkPackageJson info)
  let entryName := basename info.main
  match sig with
  | ArchSignal.ok size =>
    let updated := { info with archiveSize := some size }
    { info := updated,
      entries := [("package.json", manifest), (entryName, bc info.bundlePath)],
      events := [Event.createPackage updated],
      rejected := none, diagnostics := [] }
  | ArchSignal.warning msg =>
    { info := info, entries := [], events := [], rejected := some msg,
      diagnostics := ["Unable to create archive: " ++ msg] }
  | ArchSignal.error msg =>
    { info := info, entries := [], events := [], rejected := some msg,
      diagnostics := ["Unable to create archive: " ++ msg] }

/-- C3: a successful archiving produces exactly two zip entries — the
`package.json` manifest (2-space-indented serialization, `main` the
basename of the entry script, fixed version and license) and the bundle
contents under the basename of the entry script — sets `archiveSize` to
the total byte count written and emits exactly one `create-package`
notification carrying the updated descriptor. -/
theorem createPackage_success_spec (bc : String → String) (size : Nat)
    (info : Script) :
    (createPackage bc (ArchSignal.ok size) info).entries =
        [("package.json", serializePackageJson (mkPackageJson info)),
         (basename info.main, bc info.bundlePath)] ∧
    (createPackage bc (ArchSignal.ok size) info).entries.length = 2 ∧
    (mkPackageJson info).main = basename info.main ∧
    (mkPackageJson info).version = "1.0" ∧
    (mkPackageJson info).license = "Apache-2.0" ∧
    (createPackage bc (ArchSignal.ok size) info).info.archiveSize = some size ∧
    (createPackage bc (ArchSignal.ok size) info).events.count
        (Event.createPackage (createPackage bc (ArchSignal.ok size) info).info) = 1 ∧
    (createPackage bc (ArchSignal.ok size) info).events.length = 1 ∧
    (createPackage bc (ArchSignal.ok size) info).rejected = none := by
  refine ⟨rfl, rfl, rfl, rfl, rfl, rfl, ?_, rfl, rfl⟩
  simp [createPackage, List.count_cons]

/-- C2: an archiver-level warning or error rejects that script's
createPackage promise, surfaces a diagnostic, leaves the descriptor (in
particular `archiveSize`) untouched, and emits no `create-package`
notification. -/
theorem createPackage_failure_spec (bc : String → String) (info : Script)
    (sig : ArchSignal)
    (h : (∃ m, sig = ArchSignal.warning m) ∨ (∃ m, sig = ArchSignal.error m)) :
    (createPackage bc sig info).rejected.isSome = true ∧
    (createPackage bc sig info).diagnostics ≠ [] ∧
    (createPackage bc sig info).info.archiveSize = info.archiveSize ∧
    (createPackage bc sig info).info = info ∧
    (createPackage bc sig info).events = [] := by
  rcases h with ⟨m, rfl⟩ | ⟨m, rfl⟩ <;>
    exact ⟨rfl, by simp [createPackage], rfl, rfl, rfl⟩

theorem createPackage_failure_spec_witness :
    ((∃ m, ArchSignal.warning "disk full" = ArchSignal.warning m)
      ∨ (∃ m, ArchSignal.warning "disk full" = ArchSignal.error m)) ∧
    ((createPackage (fun _ => "js") (ArchSignal.warning "disk full")
        { main := "html.js" }).rejected.isSome = true ∧
     (createPackage (fun _ => "js") (ArchSignal.warning "disk full")
        { main := "html.js" }).diagnostics ≠ [] ∧
     (createPackage (fun _ => "js") (ArchSignal.warning "disk full")
        { main := "html.js" }).info.archiveSize
        = ({ main := "html.js" } : Script).archiveSize ∧
     (createPackage (fun _ => "js") (ArchSignal.warning "disk full")
        { main := "html.js" }).info = { main := "html.js" } ∧
     (createPackage (fun _ => "js") (ArchSignal.warning "disk full")
        { main := "html.js" }).events = []) :=
  ⟨Or.inl ⟨"disk full", rfl⟩,
   createPackage_failure_spec (fun _ => "js") { main := "html.js" }
     (ArchSignal.warning "disk full") (Or.inl ⟨"disk full", rfl⟩)⟩

/-- Appends to `acc` those elements of `xs` not already present, keeping
first occurrences (dependency merging with deduplication). -/
def dedupAppend (acc : List String) (xs : List String) : List String :=
  xs.foldl (fun a q => if q ∈ a then a else a ++ [q]) acc

/-- The direct requires of the script whose `main` is `p` (first match in
the descriptor sequence), or none when no descriptor has that main. -/
def directOf (scripts : List Script) (p : String) : List String :=
  match scripts.find? (fun s => s.main == p) with
  | some s => s.requires
  | none => []

/-- One merge round: the deduplicated `reqs` together with the direct
requires of every script they reference. -/
def expand (scripts : List Script) (reqs : List String) : List String :=
  reqs.foldl (fun a p => dedupAppend a (directOf scripts p)) (dedupAppend [] reqs)

/-- Iterated merge rounds. -/
def iterExpand (scripts : List Script) : Nat → List String → List String
  | 0, reqs => reqs
  | n + 1, reqs => iterExpand scripts n (expand scripts reqs)

/-- Every path that can ever appear while flattening `reqs`: the starting
requires plus every descriptor's requires, deduplicated. -/
def candidates (scripts : List Script) (reqs : List String) : List String :=
  dedupAppend [] (reqs ++ (scripts.map (fun s => s.requires)).flatten)

/-- The deduplicated transitive closure of `reqs` over the descriptor
sequence: enough merge rounds to reach a fixed point. -/
def flattenReqs (scripts : List Script) (reqs : List String) : List String :=
  iterExpand scripts (candidates scripts reqs).length reqs

/-- Modelled from the spec: `flattenDependencies` lives in
`packager-utils.js`, which is not part of the sources here.  Spec §4.1:
each descriptor's `requires` is replaced by its fully resolved,
deduplicated transitive closure (a dependency's own dependencies merged
in); cycles terminate and a script referencing itself transitively is
silently resolved to the closure excluding self. -/
def flattenScript (scripts : List Script) (s : Script) : Script :=
  { s with requires := (flattenReqs scripts s.requires).filter (fun p => !(p == s.main)) }

/-- Modelled from the spec: the Dependency Flattener applied to every
descriptor of the input sequence (see `flattenScript`). -/
def flattenDependencies (scripts : List Script) : List Script :=
  scripts.map (flattenScript scripts)

theorem dedupAppend_cons (acc : List String) (q : String) (xs : List String) :
    dedupAppend acc (q :: xs) = dedupAppend (if q ∈ acc then acc else acc ++ [q]) xs := rfl

theorem mem_dedupAppend : ∀ (xs acc : List String) (x : String),
    x ∈ dedupAppend acc xs ↔ x ∈ acc ∨ x ∈ xs := by
  intro xs
  induction xs with
  | nil => intro acc x; simp [dedupAppend]
  | cons q xs ih =>
    intro acc x
    rw [dedupAppend_cons, ih]
    by_cases hq : q ∈ acc
    · rw [if_pos hq]
      simp only [List.mem_cons]
      constructor
      · rintro (h | h)
        · exact Or.inl h
        · exact Or.inr (Or.inr h)
      · rintro (h | h | h)
        · exact Or.inl h
        · exact Or.inl (h ▸ hq)
        · exact Or.inr h
    · rw [if_neg hq]
      simp only [List.mem_append, List.mem_singleton, List.mem_cons]
      tauto

theorem nodup_dedupAppend : ∀ (xs acc : List String), acc.Nodup →
    (dedupAppend acc xs).Nodup := by
  intro xs
  induction xs with
  | nil => intro acc h; exact h
  | cons q xs ih =>
    intro acc h
    rw [dedupAppend_cons]
    by_cases hq : q ∈ acc
    · rw [if_pos hq]; exact ih acc h
    · rw [if_neg hq]
      refine ih (acc ++ [q]) ?_
      simp [List.nodup_append, h, hq]

theorem dedupAppend_form (acc xs : List String) : ∃ t, dedupAppend acc xs = acc ++ t := by
  induction xs generalizing acc with
  | nil => exact ⟨[], by rw [List.append_nil]; rfl⟩
  | cons q xs ih =>
    rw [dedupAppend_cons]
    by_cases hq : q ∈ acc
    · rw [if_pos hq]; exact ih acc
    · rw [if_neg hq]
      obtain ⟨t, ht⟩ := ih (acc ++ [q])
      exact ⟨q :: t, by rw [ht, List.append_assoc]; rfl⟩

theorem dedupAppend_noop : ∀ (xs acc : List String), (∀ x ∈ xs, x ∈ acc) →
    dedupAppend acc xs = acc := by
  intro xs
  induction xs with
  | nil => intro acc _; rfl
  | cons q xs ih =>
    intro acc h
    rw [dedupAppend_cons, if_pos (h q (by simp))]
    exact ih acc (fun x hx => h x (by simp [hx]))

theorem dedupAppend_all_new : ∀ (xs acc : List String), xs.Nodup →
    (∀ x ∈ xs, x ∉ acc) → dedupAppend acc xs = acc ++ xs := by
  intro xs
  induction xs with
  | nil => intro acc _ _; simp [dedupAppend]
  | cons q xs ih =>
    intro acc hnd hdisj
    rw [dedupAppend_cons, if_neg (hdisj q (by simp))]
    have hd2 : ∀ x ∈ xs, x ∉ acc ++ [q] := by
      intro x hx
      simp only [List.mem_append, List.mem_singleton]
      rintro (hc | rfl)
      · exact hdisj x (by simp [hx]) hc
      · exact (List.nodup_cons.mp hnd).1 hx
    rw [ih (acc ++ [q]) (List.nodup_cons.mp hnd).2 hd2, List.append_assoc]
    rfl

theorem expand_foldl_mem (scripts : List Script) : ∀ (r acc : List String) (x : String),
    x ∈ r.foldl (fun a p => dedupAppend a (directOf scripts p)) acc ↔
      x ∈ acc ∨ ∃ p ∈ r, x ∈ directOf scripts p := by
  intro r
  induction r with
  | nil => intro acc x; simp
  | cons q r ih =>
    intro acc x
    rw [List.foldl_cons, ih, mem_dedupAppend]
    simp only [List.mem_cons]
    constructor
    · rintro ((h | h) | ⟨p, hp, h⟩)
      · exact Or.inl h
      · exact Or.inr ⟨q, Or.inl rfl, h⟩
      · exact Or.inr ⟨p, Or.inr hp, h⟩
    · rintro (h | ⟨p, hp | hp, h⟩)
      · exact Or.inl (Or.inl h)
      · exact Or.inl (Or.inr (hp ▸ h))
      · exact Or.inr ⟨p, hp, h⟩

theorem mem_expand (scripts : List Script) (r : List String) (x : String) :
    x ∈ expand scripts r ↔ x ∈ r ∨ ∃ p ∈ r, x ∈ directOf scripts p := by
  unfold expand
  rw [expand_foldl_mem, mem_dedupAppend]
  simp

theorem expand_nodup (scripts : List Script) (r : List String) :
    (expand scripts r).Nodup := by
  unfold expand
  have hbase : (dedupAppend [] r).Nodup := nodup_dedupAppend r [] List.nodup_nil
  revert hbase
  generalize dedupAppend [] r = acc
  induction r generalizing acc with
  | nil => intro h; exact h
  | cons q r ih =>
    intro h
    rw [List.foldl_cons]
    exact ih _ (nodup_dedupAppend _ acc h)

theorem subset_expand (scripts : List Script) (r : List String) :
    ∀ x ∈ r, x ∈ expand scripts r :=
  fun x hx => (mem_expand scripts r x).mpr (Or.inl hx)

theorem foldl_dedup_form (scripts : List Script) : ∀ (r acc : List String),
    ∃ t, r.foldl (fun a p => dedupAppend a (directOf scripts p)) acc = acc ++ t := by
  intro r
  induction r with
  | nil => exact fun acc => ⟨[], by rw [List.append_nil]; rfl⟩
  | cons q r ih =>
    intro acc
    obtain ⟨t1, h1⟩ := dedupAppend_form acc (directOf scripts q)
    obtain ⟨t2, h2⟩ := ih (dedupAppend acc (directOf scripts q))
    exact ⟨t1 ++ t2, by rw [List.foldl_cons, h2, h1, List.append_assoc]⟩

theorem expand_eq_append (scripts : List Script) (r : List String) (h : r.Nodup) :
    ∃ t, expand scripts r = r ++ t := by
  unfold expand
  rw [dedupAppend_all_new r [] h (by simp), List.nil_append]
  exact foldl_dedup_form scripts r r

/-- A path set closed under taking direct requires. -/
def Closed (scripts : List Script) (S : List String) : Prop :=
  ∀ p ∈ S, ∀ x ∈ directOf scripts p, x ∈ S

theorem closed_of_expand_eq (scripts : List Script) (r : List String)
    (h : expand scripts r = r) : Closed scripts r := by
  intro p hp x hx
  have hm : x ∈ expand scripts r := (mem_expand scripts r x).mpr (Or.inr ⟨p, hp, hx⟩)
  rwa [h] at hm

theorem foldl_dedup_noop (scripts : List Script) : ∀ (r acc : List String),
    (∀ p ∈ r, ∀ x ∈ directOf scripts p, x ∈ acc) →
    r.foldl (fun a p => dedupAppend a (directOf scripts p)) acc = acc := by
  intro r
  induction r with
  | nil => intro acc _; rfl
  | cons q r ih =>
    intro acc h
    rw [List.foldl_cons, dedupAppend_noop _ acc (h q (by simp))]
    exact ih acc (fun p hp => h p (by simp [hp]))

theorem expand_eq_of_closed (scripts : List Script) (r : List String)
    (hnd : r.Nodup) (hcl : Closed scripts r) : expand scripts r = r := by
  unfold expand
  rw [dedupAppend_all_new r [] hnd (by simp), List.nil_append]
  exact foldl_dedup_noop scripts r r hcl

theorem iterExpand_of_fixed (scripts : List Script) (r : List String)
    (h : expand scripts r = r) : ∀ m, iterExpand scripts m r = r := by
  intro m
  induction m with
  | zero => rfl
  | succ m ih => simp only [iterExpand, h]; exact ih

theorem iterExpand_nodup (scripts : List Script) : ∀ (m : Nat) (r : List String),
    r.Nodup → (iterExpand scripts m r).Nodup := by
  intro m
  induction m with
  | zero => intro r h; exact h
  | succ m ih =>
    intro r _
    simp only [iterExpand]
    exact ih _ (expand_nodup scripts r)

theorem subset_iterExpand (scripts : List Script) : ∀ (m : Nat) (r : List String),
    ∀ x ∈ r, x ∈ iterExpand scripts m r := by
  intro m
  induction m with
  | zero => intro r x hx; exact hx
  | succ m ih =>
    intro r x hx
    simp only [iterExpand]
    exact ih _ x (subset_expand scripts r x hx)

theorem iterExpand_subset_closed (scripts : List Script) (S : List String)
    (hcl : Closed scripts S) : ∀ (m : Nat) (r : List String),
    (∀ x ∈ r, x ∈ S) → ∀ x ∈ iterExpand scripts m r, x ∈ S := by
  intro m
  induction m with
  | zero => intro r h x hx; exact h x hx
  | succ m ih =>
    intro r h x hx
    simp only [iterExpand] at hx
    refine ih _ ?_ x hx
    intro y hy
    rcases (mem_expand scripts r y).mp hy with hm | ⟨p, hp, hm⟩
    · exact h y hm
    · exact hcl p (h p hp) y hm

theorem length_le_of_nodup_subset (l L : List String) (hl : l.Nodup)
    (hsub : ∀ x ∈ l, x ∈ L) : l.length ≤ L.length := by
  calc l.length = l.toFinset.card := (List.toFinset_card_of_nodup hl).symm
    _ ≤ L.toFinset.card := Finset.card_le_card
        (fun x hx => List.mem_toFinset.mpr (hsub x (List.mem_toFinset.mp hx)))
    _ ≤ L.length := L.toFinset_card_le

theorem iter_saturates (scripts : List Script) (cand : List String)
    (hdir : ∀ p, ∀ x ∈ directOf scripts p, x ∈ cand) :
    ∀ (m : Nat) (r : List String), r.Nodup → (∀ x ∈ r, x ∈ cand) →
      cand.length ≤ m + r.length →
      expand scripts (iterExpand scripts m r) = iterExpand scripts m r := by
  intro m
  induction m with
  | zero =>
    intro r hnd hsub hlen
    have hcard : r.toFinset = cand.toFinset := by
      apply Finset.eq_of_subset_of_card_le
      · exact fun x hx => List.mem_toFinset.mpr (hsub x (List.mem_toFinset.mp hx))
      · calc cand.toFinset.card ≤ cand.length := cand.toFinset_card_le
          _ ≤ 0 + r.length := hlen
          _ = r.toFinset.card := by rw [List.toFinset_card_of_nodup hnd]; omega
    have hsets : ∀ x ∈ cand, x ∈ r := by
      intro x hx
      exact List.mem_toFinset.mp (hcard ▸ List.mem_toFinset.mpr hx)
    exact expand_eq_of_closed scripts r hnd
      (fun p hp x hx => hsets x (hdir p x hx))
  | succ m ih =>
    intro r hnd hsub hlen
    by_cases hfix : expand scripts r = r
    · rw [iterExpand_of_fixed scripts r hfix (m + 1)]
      exact hfix
    · obtain ⟨t, ht⟩ := expand_eq_append scripts r hnd
      have htne : t ≠ [] := by
        intro h
        exact hfix (by rw [ht, h, List.append_nil])
      have hlen2 : r.length + 1 ≤ (expand scripts r).length := by
        rw [ht, List.length_append]
        cases t with
        | nil => exact absurd rfl htne
        | cons a t =>
          simp only [List.length_cons]
          omega
      simp only [iterExpand]
      refine ih (expand scripts r) (expand_nodup scripts r) ?_ ?_
      · intro x hx
        rcases (mem_expand scripts r x).mp hx with hm | ⟨p, _, hm⟩
        · exact hsub x hm
        · exact hdir p x hm
      · omega

theorem mem_candidates_of_mem (scripts : List Script) (r : List String)
    (x : String) (hx : x ∈ r) : x ∈ candidates scripts r := by
  unfold candidates
  rw [mem_dedupAppend]
  exact Or.inr (List.mem_append.mpr (Or.inl hx))

theorem directOf_subset_candidates (scripts : List Script) (r : List String) :
    ∀ p, ∀ x ∈ directOf scripts p, x ∈ candidates scripts r := by
  intro p x hx
  unfold directOf at hx
  match hf : scripts.find? (fun s => s.main == p) with
  | none => rw [hf] at hx; simp at hx
  | some s =>
    rw [hf] at hx
    have hs : s ∈ scripts := List.mem_of_find?_eq_some hf
    unfold candidates
    rw [mem_dedupAppend]
    refine Or.inr (List.mem_append.mpr (Or.inr ?_))
    exact List.mem_flatten.mpr ⟨s.requires, List.mem_map.mpr ⟨s, hs, rfl⟩, hx⟩

theorem flattenReqs_fixed (scripts : List Script) (r : List String) :
    expand scripts (flattenReqs scripts r) = flattenReqs scripts r := by
  unfold flattenReqs
  match hN : (candidates scripts r).length with
  | 0 =>
    have hre : r = [] := by
      cases hr : r with
      | nil => rfl
      | cons a r' =>
        exfalso
        have : a ∈ candidates scripts r := mem_candidates_of_mem scripts r a (by rw [hr]; simp)
        have : (candidates scripts r).length ≠ 0 := by
          intro h0
          rw [List.length_eq_zero.mp h0] at this
          simp at this
        exact this hN
    subst hre
    rfl
  | (m + 1) =>
    cases hr : r with
    | nil =>
      have hfix : expand scripts [] = [] := rfl
      rw [iterExpand_of_fixed scripts [] hfix (m + 1)]
      exact hfix
    | cons a r' =>
      rw [← hr]
      simp only [iterExpand]
      refine iter_saturates scripts (candidates scripts r)
        (directOf_subset_candidates scripts r) m (expand scripts r)
        (expand_nodup scripts r) ?_ ?_
      · intro x hx
        rcases (mem_expand scripts r x).mp hx with hm | ⟨p, _, hm⟩
        · exact mem_candidates_of_mem scripts r x hm
        · exact directOf_subset_candidates scripts r p x hm
      · have h1 : 1 ≤ (expand scripts r).length := by
          have : a ∈ expand scripts r := subset_expand scripts r a (by rw [hr]; simp)
          cases he : expand scripts r with
          | nil => rw [he] at this; simp at this
          | cons b l => simp
        omega

theorem flattenReqs_closed (scripts : List Script) (r : List String) :
    Closed scripts (flattenReqs scripts r) :=
  closed_of_expand_eq scripts _ (flattenReqs_fixed scripts r)

theorem flattenReqs_nodup (scripts : List Script) (r : List String) :
    (flattenReqs scripts r).Nodup := by
  unfold flattenReqs
  match hN : (candidates scripts r).length with
  | 0 =>
    have hre : r = [] := by
      cases hr : r with
      | nil => rfl
      | cons a r' =>
        exfalso
        have ha : a ∈ candidates scripts r := mem_candidates_of_mem scripts r a (by rw [hr]; simp)
        have : (candidates scripts r).length ≠ 0 := by
          intro h0
          rw [List.length_eq_zero.mp h0] at ha
          simp at ha
        exact this hN
    subst hre
    exact List.nodup_nil
  | (m + 1) =>
    simp only [iterExpand]
    exact iterExpand_nodup scripts m _ (expand_nodup scripts r)

theorem flattenReqs_least (scripts : List Script) (r S : List String)
    (hcl : Closed scripts S) (hsub : ∀ x ∈ r, x ∈ S) :
    ∀ x ∈ flattenReqs scripts r, x ∈ S :=
  iterExpand_subset_closed scripts S hcl _ r hsub

theorem find?_main_eq (scripts : List Script) (B : Script)
    (hnd : (scripts.map (fun s => s.main)).Nodup) (hB : B ∈ scripts) :
    scripts.find? (fun s => s.main == B.main) = some B := by
  induction scripts with
  | nil => simp at hB
  | cons s0 rest ih =>
    have hnd' := hnd
    rw [List.map_cons, List.nodup_cons] at hnd'
    by_cases h0 : s0.main == B.main
    · rcases List.mem_cons.mp hB with rfl | hBr
      · exact List.find?_cons_of_pos rest h0
      · exfalso
        have heq : s0.main = B.main := by simpa using h0
        have hmem : s0.main ∈ rest.map (fun s => s.main) :=
          heq ▸ List.mem_map.mpr ⟨B, hBr, rfl⟩
        exact hnd'.1 hmem
    · rcases List.mem_cons.mp hB with rfl | hBr
      · simp at h0
      · rw [List.find?_cons_of_neg rest h0]
        exact ih hnd'.2 hBr

/-- C1 counterexample: on the cyclic input `a requires b`, `b requires a`,
the flattened output has `b.main ∈ a.requires` and `"a" ∈ b.requires`,
yet `"a" ∉ a.requires` — so the flattened requires, which exclude the
script itself, are not literally closed under transitivity. -/
theorem flattenDependencies_transitivity_cex :
    ∃ A ∈ flattenDependencies
        [{ main := "a", requires := ["b"] }, { main := "b", requires := ["a"] }],
      ∃ B ∈ flattenDependencies
        [{ main := "a", requires := ["b"] }, { main := "b", requires := ["a"] }],
        B.main ∈ A.requires ∧ ∃ C ∈ B.requires, C ∉ A.requires := by
  decide

/-- C1 (amended): for descriptor sets with pairwise distinct `main`
entries, every flattened `requires` list has no duplicates, never
contains the script's own `main`, and is closed under transitivity except
for the script itself: if A requires B and B requires C with C not A's
own main, then C is in A's flattened requires. -/
theorem flattenDependencies_requires_spec (scripts : List Script)
    (hnd : (scripts.map (fun s => s.main)).Nodup) :
    ∀ A ∈ flattenDependencies scripts,
      A.requires.Nodup ∧ A.main ∉ A.requires ∧
      ∀ B ∈ flattenDependencies scripts, B.main ∈ A.requires →
        ∀ C ∈ B.requires, C ≠ A.main → C ∈ A.requires := by
  intro A hA
  obtain ⟨A0, hA0, rfl⟩ := List.mem_map.mp hA
  refine ⟨?_, ?_, ?_⟩
  · exact (flattenReqs_nodup scripts A0.requires).filter _
  · intro h
    have := (List.mem_filter.mp h).2
    simp at this
    exact this rfl
  · intro B hB hBmem C hC hCne
    obtain ⟨B0, hB0, rfl⟩ := List.mem_map.mp hB
    have hBmemFA : B0.main ∈ flattenReqs scripts A0.requires :=
      (List.mem_filter.mp hBmem).1
    have hclosedFA : Closed scripts (flattenReqs scripts A0.requires) :=
      flattenReqs_closed scripts A0.requires
    have hdir : directOf scripts B0.main = B0.requires := by
      unfold directOf
      rw [find?_main_eq scripts B0 hnd hB0]
    have hBreqFA : ∀ x ∈ B0.requires, x ∈ flattenReqs scripts A0.requires := by
      intro x hx
      exact hclosedFA B0.main hBmemFA x (by rw [hdir]; exact hx)
    have hCFB : C ∈ flattenReqs scripts B0.requires := (List.mem_filter.mp hC).1
    have hCFA : C ∈ flattenReqs scripts A0.requires :=
      flattenReqs_least scripts B0.requires _ hclosedFA hBreqFA C hCFB
    exact List.mem_filter.mpr ⟨hCFA, by simpa using hCne⟩

theorem flattenDependencies_requires_spec_witness :
    (([{ main := "a.js", requires := [] }, { main := "b.js", requires := ["a.js"] },
       { main := "c.js", requires := ["b.js", "b.js"] }] : List Script).map
        (fun s => s.main)).Nodup ∧
    (∀ A ∈ flattenDependencies
        [{ main := "a.js", requires := [] }, { main := "b.js", requires := ["a.js"] },
         { main := "c.js", requires := ["b.js", "b.js"] }],
      A.requires.Nodup ∧ A.main ∉ A.requires ∧
      ∀ B ∈ flattenDependencies
          [{ main := "a.js", requires := [] }, { main := "b.js", requires := ["a.js"] },
           { main := "c.js", requires := ["b.js", "b.js"] }],
        B.main ∈ A.requires →
        ∀ C ∈ B.requires, C ≠ A.main → C ∈ A.requires) :=
  ⟨by decide,
   flattenDependencies_requires_spec
     [{ main := "a.js", requires := [] }, { main := "b.js", requires := ["a.js"] },
      { main := "c.js", requires := ["b.js", "b.js"] }] (by decide)⟩

/-- The result object of the bundler adapter (`ActionBundler.run`):
optional error and warning diagnostic lists. -/
structure Stats where
  errors : Option (List String) := none
  warnings : Option (List String) := none
deriving DecidableEq

/-- Observable effect of `createBundles`: the name-to-entry-path mapping
handed to the bundler, and the diagnostics surfaced from its stats
(`stats.errors.forEach(log.error)`, `stats.warnings.forEach(log.warn)`). -/
structure BundleRun where
  files : List (String × String)
  errorDiags : List String
  warnDiags : List String
deriving DecidableEq

/-- Embedding of `PackageCommand.createBundles` (progress handling aside):
builds the files mapping and surfaces the returned diagnostics, which
never abort the run. -/
def createBundles (target : String) (stats : Stats) (scripts : List Script) :
    BundleRun :=
  { files := scripts.map (fun s => (s.name, pathResolve [target, s.main])),
    errorDiags := stats.errors.getD [],
    warnDiags := stats.warnings.getD [] }

/-- Derivation of the additional descriptor fields in `run` (the
`scripts.forEach` block before bundling). -/
def deriveFields (target : String) (s : Script) : Script :=
  let nm := basenameExt s.main ".js"
  let bn := nm ++ ".bundle.js"
  let dn := if s.isStatic then "" else dirname s.main
  { s with
    name := nm,
    bundleName := bn,
    bundlePath := pathResolve [target, bn],
    dirname := dn,
    archiveName := nm ++ ".zip",
    zipFile := some (pathResolve [target, dn, nm ++ ".zip"]),
    infoFile := pathResolve [target, dn, nm ++ ".info.json"] }

/-- Phase marks of one run, in emission order: the completed bundler
invocation, each surfaced bundler diagnostic, then each script's
archiving. -/
inductive PhaseEv where
  | bundling
  | bundleDiag (msg : String)
  | archive (name : String)
deriving DecidableEq

def isBundlePhase : PhaseEv → Bool
  | PhaseEv.bundling => true
  | PhaseEv.bundleDiag _ => true
  | PhaseEv.archive _ => false

def isArchivePhase : PhaseEv → Bool
  | PhaseEv.bundling => false
  | PhaseEv.bundleDiag _ => false
  | PhaseEv.archive _ => true

/-- The working set surviving the incremental filter. -/
def runKept (onlyModified : Bool) (fsE : String → Bool)
    (scriptInfos : List Script) : List Script :=
  (incrementalFilter onlyModified fsE (flattenDependencies scriptInfos)).1

/-- The working set with all derived fields filled in. -/
def runScripts (target : String) (onlyModified : Bool) (fsE : String → Bool)
    (scriptInfos : List Script) : List Script :=
  (runKept onlyModified fsE scriptInfos).map (deriveFields target)

/-- The per-script archiving results of the run. -/
def runPkgs (target : String) (onlyModified : Bool) (fsE : String → Bool)
    (scriptInfos : List Script) (bc : String → String)
    (archSig : String → ArchSignal) : List CPkgResult :=
  (runScripts target onlyModified fsE scriptInfos).map
    (fun s => createPackage bc (archSig s.name) s)

/-- Observable outcome of one `PackageCommand.run`. -/
structure RunResult where
  scripts : List Script
  ignoreEvents : List Event
  packageEvents : List Event
  bundlerInvocations : List (List (String × String))
  bundlerErrorDiags : List String
  bundlerWarnDiags : List String
  archiveWrites : List (String × List (String × String))
  archiveDiags : List String
  infoWrites : List (String × Script)
  failed : Bool
  trace : List PhaseEv
deriving DecidableEq

/-- Embedding of `PackageCommand.run` after the external build step:
load descriptors (`scriptInfos`), flatten dependencies, apply the
incremental filter, and — only when scripts remain — derive fields,
invoke the bundler once, archive every script, and write the updated
descriptors back, the write-back being skipped when any archiving
promise rejects (the awaited `Promise.all` throws first). -/
def run (target : String) (onlyModified : Bool) (fsE : String → Bool)
    (scriptInfos : List Script) (stats : Stats) (bc : String → String)
    (archSig : String → ArchSignal) : RunResult :=
  if 0 < (runKept onlyModified fsE scriptInfos).length then
    { scripts := (runPkgs target onlyModified fsE scriptInfos bc archSig).map
        (fun r => r.info),
      ignoreEvents :=
        (incrementalFilter onlyModified fsE (flattenDependencies scriptInfos)).2,
      packageEvents := ((runPkgs target onlyModified fsE scriptInfos bc archSig).map
        (fun r => r.events)).flatten,
      bundlerInvocations :=
        [(createBundles target stats (runScripts target onlyModified fsE scriptInfos)).files],
      bundlerErrorDiags :=
        (createBundles target stats (runScripts target onlyModified fsE scriptInfos)).errorDiags,
      bundlerWarnDiags :=
        (createBundles target stats (runScripts target onlyModified fsE scriptInfos)).warnDiags,
      archiveWrites := (runPkgs target onlyModified fsE scriptInfos bc archSig).filterMap
        (fun r => if r.rejected.isNone then some (r.info.zipFile.getD "", r.entries) else none),
      archiveDiags := ((runPkgs target onlyModified fsE scriptInfos bc archSig).map
        (fun r => r.diagnostics)).flatten,
      infoWrites :=
        if (runPkgs target onlyModified fsE scriptInfos bc archSig).any
            (fun r => r.rejected.isSome) then []
        else ((runPkgs target onlyModified fsE scriptInfos bc archSig).map
          (fun r => r.info)).map (fun s => (s.infoFile, s)),
      failed := (runPkgs target onlyModified fsE scriptInfos bc archSig).any
        (fun r => r.rejected.isSome),
      trace := (PhaseEv.bundling ::
          ((createBundles target stats (runScripts target onlyModified fsE scriptInfos)).errorDiags
            ++ (createBundles target stats (runScripts target onlyModified fsE scriptInfos)).warnDiags).map
            PhaseEv.bundleDiag)
        ++ (runScripts target onlyModified fsE scriptInfos).map
            (fun s => PhaseEv.archive s.name) }
  else
    { scripts := runKept onlyModified fsE scriptInfos,
      ignoreEvents :=
        (incrementalFilter onlyModified fsE (flattenDependencies scriptInfos)).2,
      packageEvents := [],
      bundlerInvocations := [],
      bundlerErrorDiags := [],
      bundlerWarnDiags := [],
      archiveWrites := [],
      archiveDiags := [],
      infoWrites := [],
      failed := false,
      trace := [] }

theorem pkgs_ok_any_false (bc : String → String) (archSig : String → ArchSignal)
    (hok : ∀ n, ∃ sz, archSig n = ArchSignal.ok sz) (l : List Script) :
    (l.map (fun s => createPackage bc (archSig s.name) s)).any
      (fun r => r.rejected.isSome) = false := by
  induction l with
  | nil => rfl
  | cons s l ih =>
    obtain ⟨sz, hsz⟩ := hok s.name
    simp only [List.map_cons, List.any_cons, hsz, ih]
    rfl

theorem createPackage_ok_events_len (bc : String → String) (sz : Nat) (s : Script) :
    (createPackage bc (ArchSignal.ok sz) s).events.length = 1 := rfl

theorem createPackage_ok_rejected_isNone (bc : String → String) (sz : Nat) (s : Script) :
    (createPackage bc (ArchSignal.ok sz) s).rejected.isNone = true := rfl

theorem pkgs_ok_events_length (bc : String → String) (archSig : String → ArchSignal)
    (hok : ∀ n, ∃ sz, archSig n = ArchSignal.ok sz) (l : List Script) :
    ((l.map (fun s => createPackage bc (archSig s.name) s)).map
      (fun r => r.events)).flatten.length = l.length := by
  induction l with
  | nil => rfl
  | cons s l ih =>
    obtain ⟨sz, hsz⟩ := hok s.name
    simp only [List.map_cons, List.flatten_cons, List.length_append, List.length_cons,
      ih, hsz, createPackage_ok_events_len]
    omega

theorem pkgs_ok_writes_length (bc : String → String) (archSig : String → ArchSignal)
    (hok : ∀ n, ∃ sz, archSig n = ArchSignal.ok sz) (l : List Script) :
    ((l.map (fun s => createPackage bc (archSig s.name) s)).filterMap
      (fun r => if r.rejected.isNone then some (r.info.zipFile.getD "", r.entries)
                else none)).length = l.length := by
  induction l with
  | nil => rfl
  | cons s l ih =>
    obtain ⟨sz, hsz⟩ := hok s.name
    have hstep :
        (s :: l).map (fun s => createPackage bc (archSig s.name) s)
          = createPackage bc (ArchSignal.ok sz) s
              :: l.map (fun s => createPackage bc (archSig s.name) s) := by
      rw [List.map_cons, hsz]
    rw [hstep]
    have hred : List.filterMap
        (fun r => if r.rejected.isNone = true
          then some (r.info.zipFile.getD "", r.entries) else none)
        (createPackage bc (ArchSignal.ok sz) s
          :: l.map (fun s => createPackage bc (archSig s.name) s))
      = ((createPackage bc (ArchSignal.ok sz) s).info.zipFile.getD "",
         (createPackage bc (ArchSignal.ok sz) s).entries)
        :: List.filterMap
          (fun r => if r.rejected.isNone = true
            then some (r.info.zipFile.getD "", r.entries) else none)
          (l.map (fun s => createPackage bc (archSig s.name) s)) := rfl
    rw [hred, List.length_cons, ih, List.length_cons]

/-- C5: when the filtered working set is empty, the run invokes no
bundler, writes no archives and no descriptor files, surfaces no
diagnostics and does not fail. -/
theorem run_empty_noop (target : String) (onlyModified : Bool)
    (fsE : String → Bool) (scriptInfos : List Script) (stats : Stats)
    (bc : String → String) (archSig : String → ArchSignal)
    (h : runKept onlyModified fsE scriptInfos = []) :
    (run target onlyModified fsE scriptInfos stats bc archSig).bundlerInvocations = [] ∧
    (run target onlyModified fsE scriptInfos stats bc archSig).archiveWrites = [] ∧
    (run target onlyModified fsE scriptInfos stats bc archSig).infoWrites = [] ∧
    (run target onlyModified fsE scriptInfos stats bc archSig).failed = false ∧
    (run target onlyModified fsE scriptInfos stats bc archSig).bundlerErrorDiags = [] ∧
    (run target onlyModified fsE scriptInfos stats bc archSig).bundlerWarnDiags = [] ∧
    (run target onlyModified fsE scriptInfos stats bc archSig).archiveDiags = [] ∧
    (run target onlyModified fsE scriptInfos stats bc archSig).packageEvents = [] := by
  have hk : ¬ 0 < (runKept onlyModified fsE scriptInfos).length := by
    rw [h]; simp
  simp [run, if_neg hk]

theorem run_empty_noop_witness :
    runKept true (fun _ => true) [{ main := "a.js", zipFile := some "/t/a.zip" }] = [] ∧
    ((run "/t" true (fun _ => true) [{ main := "a.js", zipFile := some "/t/a.zip" }]
        { errors := none, warnings := none } (fun _ => "") (fun _ => ArchSignal.ok 1)).bundlerInvocations = [] ∧
     (run "/t" true (fun _ => true) [{ main := "a.js", zipFile := some "/t/a.zip" }]
        { errors := none, warnings := none } (fun _ => "") (fun _ => ArchSignal.ok 1)).archiveWrites = [] ∧
     (run "/t" true (fun _ => true) [{ main := "a.js", zipFile := some "/t/a.zip" }]
        { errors := none, warnings := none } (fun _ => "") (fun _ => ArchSignal.ok 1)).infoWrites = [] ∧
     (run "/t" true (fun _ => true) [{ main := "a.js", zipFile := some "/t/a.zip" }]
        { errors := none, warnings := none } (fun _ => "") (fun _ => ArchSignal.ok 1)).failed = false ∧
     (run "/t" true (fun _ => true) [{ main := "a.js", zipFile := some "/t/a.zip" }]
        { errors := none, warnings := none } (fun _ => "") (fun _ => ArchSignal.ok 1)).bundlerErrorDiags = [] ∧
     (run "/t" true (fun _ => true) [{ main := "a.js", zipFile := some "/t/a.zip" }]
        { errors := none, warnings := none } (fun _ => "") (fun _ => ArchSignal.ok 1)).bundlerWarnDiags = [] ∧
     (run "/t" true (fun _ => true) [{ main := "a.js", zipFile := some "/t/a.zip" }]
        { errors := none, warnings := none } (fun _ => "") (fun _ => ArchSignal.ok 1)).archiveDiags = [] ∧
     (run "/t" true (fun _ => true) [{ main := "a.js", zipFile := some "/t/a.zip" }]
        { errors := none, warnings := none } (fun _ => "") (fun _ => ArchSignal.ok 1)).packageEvents = []) :=
  ⟨by decide,
   run_empty_noop "/t" true (fun _ => true)
     [{ main := "a.js", zipFile := some "/t/a.zip" }]
     { errors := none, warnings := none } (fun _ => "") (fun _ => ArchSignal.ok 1)
     (by decide)⟩

/-- C6: diagnostics returned (not thrown) by the bundler never abort the
run: every script is still archived (given archiving itself succeeds),
the run completes unfailed, and the returned error and warning lists are
surfaced exactly as returned, each entry once. -/
theorem run_bundler_diags_nonfatal (target : String) (onlyModified : Bool)
    (fsE : String → Bool) (scriptInfos : List Script) (stats : Stats)
    (bc : String → String) (archSig : String → ArchSignal)
    (hok : ∀ n, ∃ sz, archSig n = ArchSignal.ok sz)
    (hk : runKept onlyModified fsE scriptInfos ≠ []) :
    (run target onlyModified fsE scriptInfos stats bc archSig).failed = false ∧
    (run target onlyModified fsE scriptInfos stats bc archSig).bundlerErrorDiags
      = stats.errors.getD [] ∧
    (run target onlyModified fsE scriptInfos stats bc archSig).bundlerWarnDiags
      = stats.warnings.getD [] ∧
    (run target onlyModified fsE scriptInfos stats bc archSig).archiveWrites.length
      = (runKept onlyModified fsE scriptInfos).length ∧
    (run target onlyModified fsE scriptInfos stats bc archSig).packageEvents.length
      = (runKept onlyModified fsE scriptInfos).length := by
  have hk' : 0 < (runKept onlyModified fsE scriptInfos).length :=
    List.length_pos.mpr hk
  simp only [run, if_pos hk']
  refine ⟨?_, rfl, rfl, ?_, ?_⟩
  · exact pkgs_ok_any_false bc archSig hok _
  · rw [runPkgs, pkgs_ok_writes_length bc archSig hok _, runScripts, List.length_map]
  · rw [runPkgs, pkgs_ok_events_length bc archSig hok _, runScripts, List.length_map]

theorem run_bundler_diags_nonfatal_witness :
    ((∀ n : String, ∃ sz, (fun _ : String => ArchSignal.ok 7) n = ArchSignal.ok sz) ∧
      runKept false (fun _ => false) [{ main := "a.js" }] ≠ []) ∧
    ((run "/t" false (fun _ => false) [{ main := "a.js" }]
        { errors := none, warnings := some ["w1"] } (fun _ => "") (fun _ => ArchSignal.ok 7)).failed = false ∧
     (run "/t" false (fun _ => false) [{ main := "a.js" }]
        { errors := none, warnings := some ["w1"] } (fun _ => "") (fun _ => ArchSignal.ok 7)).bundlerErrorDiags
        = ({ errors := none, warnings := some ["w1"] } : Stats).errors.getD [] ∧
     (run "/t" false (fun _ => false) [{ main := "a.js" }]
        { errors := none, warnings := some ["w1"] } (fun _ => "") (fun _ => ArchSignal.ok 7)).bundlerWarnDiags
        = ({ errors := none, warnings := some ["w1"] } : Stats).warnings.getD [] ∧
     (run "/t" false (fun _ => false) [{ main := "a.js" }]
        { errors := none, warnings := some ["w1"] } (fun _ => "") (fun _ => ArchSignal.ok 7)).archiveWrites.length
        = (runKept false (fun _ => false) [{ main := "a.js" }]).length ∧
     (run "/t" false (fun _ => false) [{ main := "a.js" }]
        { errors := none, warnings := some ["w1"] } (fun _ => "") (fun _ => ArchSignal.ok 7)).packageEvents.length
        = (runKept false (fun _ => false) [{ main := "a.js" }]).length) :=
  ⟨⟨fun _ => ⟨7, rfl⟩, by decide⟩,
   run_bundler_diags_nonfatal "/t" false (fun _ => false) [{ main := "a.js" }]
     { errors := none, warnings := some ["w1"] } (fun _ => "") (fun _ => ArchSignal.ok 7)
     (fun _ => ⟨7, rfl⟩) (by decide)⟩

/-- C7: in every run the trace splits into a bundling-phase segment
followed by an archiving-phase segment: archiving never begins for any
script before bundling, including the surfacing of bundler diagnostics,
has fully completed. -/
theorem run_bundling_before_archiving (target : String) (onlyModified : Bool)
    (fsE : String → Bool) (scriptInfos : List Script) (stats : Stats)
    (bc : String → String) (archSig : String → ArchSignal) :
    ∃ bPart aPart,
      (run target onlyModified fsE scriptInfos stats bc archSig).trace
        = bPart ++ aPart ∧
      (∀ e ∈ bPart, isBundlePhase e = true) ∧
      (∀ e ∈ aPart, isArchivePhase e = true) := by
  by_cases hk : 0 < (runKept onlyModified fsE scriptInfos).length
  · refine ⟨PhaseEv.bundling ::
        ((createBundles target stats (runScripts target onlyModified fsE scriptInfos)).errorDiags
          ++ (createBundles target stats (runScripts target onlyModified fsE scriptInfos)).warnDiags).map
          PhaseEv.bundleDiag,
      (runScripts target onlyModified fsE scriptInfos).map
        (fun s => PhaseEv.archive s.name), ?_, ?_, ?_⟩
    · simp only [run, if_pos hk]
    · intro e he
      rcases List.mem_cons.mp he with rfl | he
      · rfl
      · obtain ⟨m, _, rfl⟩ := List.mem_map.mp he
        rfl
    · intro e he
      obtain ⟨s, _, rfl⟩ := List.mem_map.mp he
      rfl
  · exact ⟨[], [], by simp [run, if_neg hk], by simp, by simp⟩

/-- C8 counterexample: incremental mode with the descriptor's zip already
on disk — one descriptor is loaded at run start, yet nothing at all is
written back at run end. -/
theorem run_writeback_cex :
    (run "/t" true (fun p => p == "/t/a.zip")
        [{ main := "a.js", zipFile := some "/t/a.zip" }]
        { errors := none, warnings := none } (fun _ => "")
        (fun _ => ArchSignal.ok 1)).infoWrites = [] ∧
    ([({ main := "a.js", zipFile := some "/t/a.zip" } : Script)]).length = 1 := by
  exact ⟨by decide, rfl⟩

/-- C8 (amended): the descriptors written back at run end are exactly the
final working set — every descriptor surviving the incremental filter,
written to its derived `infoFile` path — provided every archiving
operation succeeds; filtered-out descriptors are not rewritten and an
empty working set writes nothing. -/
theorem run_writeback_spec (target : String) (onlyModified : Bool)
    (fsE : String → Bool) (scriptInfos : List Script) (stats : Stats)
    (bc : String → String) (archSig : String → ArchSignal)
    (hok : ∀ n, ∃ sz, archSig n = ArchSignal.ok sz) :
    (run target onlyModified fsE scriptInfos stats bc archSig).infoWrites
      = (run target onlyModified fsE scriptInfos stats bc archSig).scripts.map
          (fun s => (s.infoFile, s)) ∧
    (run target onlyModified fsE scriptInfos stats bc archSig).scripts.length
      = (runKept onlyModified fsE scriptInfos).length := by
  by_cases hk : 0 < (runKept onlyModified fsE scriptInfos).length
  · simp only [run, if_pos hk]
    constructor
    · rw [runPkgs, pkgs_ok_any_false bc archSig hok _]
      simp [runPkgs]
    · rw [List.length_map, runPkgs, List.length_map, runScripts, List.length_map]
  · have hke : runKept onlyModified fsE scriptInfos = [] := by
      cases he : runKept onlyModified fsE scriptInfos with
      | nil => rfl
      | cons a l => rw [he] at hk; simp at hk
    simp only [run, if_neg hk, hke]
    exact ⟨rfl, rfl⟩

theorem run_writeback_spec_witness :
    (∀ n : String, ∃ sz, (fun _ : String => ArchSignal.ok 4) n = ArchSignal.ok sz) ∧
    ((run "/t" false (fun _ => false) [{ main := "a.js" }]
        { errors := none, warnings := none } (fun _ => "")
        (fun _ => ArchSignal.ok 4)).infoWrites
      = (run "/t" false (fun _ => false) [{ main := "a.js" }]
          { errors := none, warnings := none } (fun _ => "")
          (fun _ => ArchSignal.ok 4)).scripts.map (fun s => (s.infoFile, s)) ∧
     (run "/t" false (fun _ => false) [{ main := "a.js" }]
        { errors := none, warnings := none } (fun _ => "")
        (fun _ => ArchSignal.ok 4)).scripts.length
      = (runKept false (fun _ => false) [{ main := "a.js" }]).length) :=
  ⟨fun _ => ⟨4, rfl⟩,
   run_writeback_spec "/t" false (fun _ => false) [{ main := "a.js" }]
     { errors := none, warnings := none } (fun _ => "") (fun _ => ArchSignal.ok 4)
     (fun _ => ⟨4, rfl⟩)⟩

end Helix
